import Mathlib

/-!
Verification development for the chunked-buffer TLS I/O layer
(`src/common/buffers_tls.c`): a shallow embedding of `buf_read_from_tls`,
`read_to_chunk_tls`, `flush_chunk_tls` and `buf_flush_to_tls`, together with
proofs about their behaviour.

The transport (`tor_tls_read` / `tor_tls_write` /
`tor_tls_get_forced_write_size`) is external to this layer and is modelled as
a scripted mock, one script entry per transport call.  The chunk/buffer layer
(`buffers.c`) is not part of the sources; its operations used here
(`buf_add_chunk_with_capacity`, `buf_drain`, `CHUNK_REMAINING_CAPACITY`,
`MIN_READ_LEN`) are modelled from the specification and marked as such.

Machine integers: `size_t` values are represented as `Nat` (with explicit
mod-`2^64` arithmetic where the C code can wrap), `int`/`ssize_t` values as
`Int`.  `tor_assert` failure (process abort) and the `BUG()` early-return
paths are explicit outcomes.  Every transport call and the injected
peer-address logging are recorded in an event trace, so that claims about
observable side effects can be stated.
-/

namespace BufTls

abbrev Byte := Nat

/-- `INT_MAX` for a 32-bit `int`, as in the C code's guards. -/
def INT_MAX : Nat := 2147483647

/-- `2^64`, the modulus of `size_t` arithmetic. -/
def SIZE_MOD : Nat := 18446744073709551616

/-- The C expression `INT_MAX - at_most` evaluated in `size_t` arithmetic:
the `int` constant is converted to `size_t` and the subtraction wraps
modulo `2^64`. -/
def usubIntMax (at_most : Nat) : Nat :=
  (INT_MAX + SIZE_MOD - at_most % SIZE_MOD) % SIZE_MOD

/-- A chunk: a fixed-capacity memory block (`memlen`) holding `data`
(the valid bytes; `datalen = data.length`). -/
structure Chunk where
  data : List Byte
  memlen : Nat
deriving DecidableEq, Repr

def Chunk.datalen (c : Chunk) : Nat := c.data.length

/-- `CHUNK_REMAINING_CAPACITY(chunk)` = `memlen - datalen`. -/
def CHUNK_REMAINING_CAPACITY (c : Chunk) : Nat := c.memlen - c.datalen

/-- The last chunk of a chunk list (the buffer's `tail`). -/
def lastC : List Chunk → Option Chunk
  | [] => none
  | [c] => some c
  | _ :: c :: cs => lastC (c :: cs)

/-- Apply `f` to the last chunk of a list (used to write into `buf->tail`). -/
def mapLast (f : Chunk → Chunk) : List Chunk → List Chunk
  | [] => []
  | [c] => [f c]
  | c :: c2 :: cs => c :: mapLast f (c2 :: cs)

/-- A buffer: an ordered chunk list (head = oldest data first) plus the
cached aggregate length counter `buf->datalen`, maintained separately from
the chunks exactly as in the C code. -/
structure Buf where
  chunks : List Chunk
  datalen : Nat
deriving DecidableEq, Repr

/-- The logical byte content of a chunk list, head first. -/
def bytesOfChunks : List Chunk → List Byte
  | [] => []
  | c :: cs => c.data ++ bytesOfChunks cs

/-- The logical byte content of a buffer. -/
def bytesOf (b : Buf) : List Byte := bytesOfChunks b.chunks

def emptyBuf : Buf := { chunks := [], datalen := 0 }

/-- Allocation policy of the chunk layer: the minimum-read threshold
(`MIN_READ_LEN`) and the capacity the allocator actually gives a new chunk
for a requested capacity (which may exceed the request for amortization, or
be capped below it — the caller clamps `readlen` to `chunk->memlen`). -/
structure Policy where
  minReadLen : Nat
  allocCap : Nat → Nat

/-- Modelled from the spec: `buf_add_chunk_with_capacity` (from the absent
`buffers.c`) appends a fresh empty chunk as the new tail, sized by the
allocation policy for the requested capacity. -/
def buf_add_chunk_with_capacity (p : Policy) (b : Buf) (capacity : Nat) : Buf :=
  { b with chunks := b.chunks ++ [{ data := [], memlen := p.allocCap capacity }] }

/-- Modelled from the spec: the chunk-list part of `buf_drain` (from the
absent `buffers.c`): remove the first `n` bytes from the logical stream,
freeing any chunk fully consumed. -/
def drainChunks : List Chunk → Nat → List Chunk
  | cs, 0 => cs
  | [], _ + 1 => []
  | c :: cs, n + 1 =>
    if c.datalen ≤ n + 1 then drainChunks cs (n + 1 - c.datalen)
    else { c with data := c.data.drop (n + 1) } :: cs

/-- Modelled from the spec: `buf_drain` (from the absent `buffers.c`)
removes the first `n` bytes and decrements `total_len` by `n`; it fails
(programmer error, an assertion) if `n` exceeds `total_len`. -/
def buf_drain (b : Buf) (n : Nat) : Option Buf :=
  if b.datalen < n then none
  else some { chunks := drainChunks b.chunks n, datalen := b.datalen - n }

/-! ### The transport mock -/

/-- One scripted behaviour of `tor_tls_read`: either deliver bytes (the call
takes at most the requested count from `bs`) or return an error code. -/
inductive ReadStep where
  | yield (bs : List Byte)
  | err (code : Int)
deriving DecidableEq, Repr

/-- One scripted behaviour of `tor_tls_write`: either accept up to `k` of
the offered bytes or return an error code. -/
inductive WriteStep where
  | accept (k : Nat)
  | err (code : Int)
deriving DecidableEq, Repr

/-- The TLS transport mock: a script of read behaviours, a script of
(forced-write-size, write behaviour) pairs — one per flush iteration — and
the remote peer's address data reachable through `getpeername` on the
connection's socket. -/
structure TlsMock where
  reads : List ReadStep
  writes : List (Nat × WriteStep)
  peerIp : String
  peerPort : Nat
deriving DecidableEq, Repr

/-- `tor_tls_read(tls, ptr, n)`: result code, bytes actually written into
the chunk, and the advanced mock.  An exhausted script reads 0 bytes. -/
def tor_tls_read (m : TlsMock) (n : Nat) : Int × List Byte × TlsMock :=
  match m.reads with
  | [] => (0, [], m)
  | ReadStep.yield bs :: rest =>
    let t := bs.take n
    ((t.length : Int), t, { m with reads := rest })
  | ReadStep.err c :: rest => (c, [], { m with reads := rest })

/-- The forced write size the transport would report for the next flush
iteration (`tor_tls_get_forced_write_size`). -/
def peekForced (m : TlsMock) : Nat :=
  match m.writes with
  | [] => 0
  | (f, _) :: _ => f

/-- Consume one flush-iteration script entry: the forced write size together
with the write behaviour.  An exhausted script forces nothing and accepts
nothing. -/
def nextWrite (m : TlsMock) : Nat × WriteStep × TlsMock :=
  match m.writes with
  | [] => (0, WriteStep.accept 0, m)
  | (f, s) :: rest => (f, s, { m with writes := rest })

/-- A read script is well formed when every scripted error code is negative
(a non-negative return of `tor_tls_read` means that many bytes were
delivered). -/
def wfReads : List ReadStep → Bool
  | [] => true
  | ReadStep.yield _ :: r => wfReads r
  | ReadStep.err c :: r => decide (c < 0) && wfReads r

/-- A write script is well formed when every scripted error code is negative
(a non-negative return of `tor_tls_write` means that many bytes were
accepted). -/
def wfWrites : List (Nat × WriteStep) → Bool
  | [] => true
  | (_, WriteStep.accept _) :: r => wfWrites r
  | (_, WriteStep.err c) :: r => decide (c < 0) && wfWrites r

/-! ### Observable events and outcomes -/

/-- Observable side effects of the two operations: transport reads,
transport writes, and the injected peer-address/timestamp logging. -/
inductive Event where
  | readCall (requested : Nat) (result : Int) (bytes : List Byte)
  | writeCall (sz : Nat) (data : List Byte) (result : Int)
  | logPeer (ip : String) (port : Nat) (time : Nat) (total : Nat)
deriving DecidableEq, Repr

/-- Outcome of a call: normal return, negative error return, `tor_assert`
failure (process abort), or `spin` — the model's fuel ran out (the C loop
would not have terminated yet). -/
inductive Res where
  | ok (n : Nat)
  | err (code : Int)
  | assertFail
  | spin
deriving DecidableEq, Repr

/-- The read-call events of a trace. -/
def readEvents : List Event → List Event
  | [] => []
  | (Event.readCall n r bs) :: evs => Event.readCall n r bs :: readEvents evs
  | _ :: evs => readEvents evs

/-- The write-call events of a trace. -/
def writeEvents : List Event → List Event
  | [] => []
  | (Event.writeCall s d r) :: evs => Event.writeCall s d r :: writeEvents evs
  | _ :: evs => writeEvents evs

/-- Concatenation of all bytes delivered by the transport's reads in a
trace. -/
def readYields : List Event → List Byte
  | [] => []
  | (Event.readCall _ _ bs) :: evs => bs ++ readYields evs
  | _ :: evs => readYields evs

/-- Concatenation of all bytes the transport's write actually accepted in a
trace (for a failed write, nothing). -/
def writeAccepted : List Event → List Byte
  | [] => []
  | (Event.writeCall _ d r) :: evs => d.take r.toNat ++ writeAccepted evs
  | _ :: evs => writeAccepted evs

/-- A read event is full when the transport delivered exactly the requested
number of bytes (non-read events count as full). -/
def isFullRead : Event → Bool
  | Event.readCall n r _ => r == (n : Int)
  | _ => true

/-! ### The read path: `read_to_chunk_tls` and `buf_read_from_tls` -/

/-- `read_to_chunk_tls(buf, chunk, tls, at_most)` where `chunk` is the
buffer's tail (the chunk the fill loop selected): assert the chunk has
`at_most` remaining capacity, call `tor_tls_read`, and on a non-negative
result advance both `chunk->datalen` and `buf->datalen` by the bytes read.
`none` is the `tor_assert` failure (including the null tail the C code
would dereference). -/
def read_to_chunk_tls (b : Buf) (m : TlsMock) (at_most : Nat) :
    Option (Int × Buf × TlsMock × Event) :=
  match lastC b.chunks with
  | none => none
  | some chunk =>
    if at_most ≤ CHUNK_REMAINING_CAPACITY chunk then
      match tor_tls_read m at_most with
      | (r, bs, m2) =>
        if r < 0 then some (r, b, m2, Event.readCall at_most r bs)
        else some (r,
          { chunks := mapLast (fun c => { c with data := c.data ++ bs }) b.chunks,
            datalen := b.datalen + r.toNat },
          m2, Event.readCall at_most r bs)
    else none

/-- One loop iteration's chunk selection in `buf_read_from_tls`: grow the
buffer with a chunk sized for `at_most` when there is no tail or the tail's
remaining capacity is below `MIN_READ_LEN`, else reuse the tail; clamp the
iteration's read length to the chosen chunk's room. -/
def fill_chunk_choice (p : Policy) (b : Buf) (at_most total : Nat) : Buf × Nat :=
  let readlen := at_most - total
  match lastC b.chunks with
  | none =>
    (buf_add_chunk_with_capacity p b at_most, min readlen (p.allocCap at_most))
  | some t =>
    if CHUNK_REMAINING_CAPACITY t < p.minReadLen then
      (buf_add_chunk_with_capacity p b at_most, min readlen (p.allocCap at_most))
    else (b, min readlen (CHUNK_REMAINING_CAPACITY t))

/-- The `while (at_most > total_read)` loop of `buf_read_from_tls`, with
fuel (the C loop needs at most `at_most` iterations whenever every selected
read length is positive; exhausted fuel is reported as `Res.spin`). -/
def fillLoop (p : Policy) (at_most : Nat) :
    Nat → Buf → TlsMock → Nat → Res × Buf × TlsMock × List Event
  | 0, b, m, _ => (Res.spin, b, m, [])
  | fuel + 1, b, m, total =>
    if at_most ≤ total then (Res.ok total, b, m, [])
    else
      match read_to_chunk_tls (fill_chunk_choice p b at_most total).1 m
          (fill_chunk_choice p b at_most total).2 with
      | none => (Res.assertFail, (fill_chunk_choice p b at_most total).1, m, [])
      | some (r, b2, m2, ev) =>
        if r < 0 then (Res.err r, b2, m2, [ev])
        else if INT_MAX ≤ total + r.toNat then (Res.assertFail, b2, m2, [ev])
        else if r.toNat < (fill_chunk_choice p b at_most total).2 then
          (Res.ok (total + r.toNat), b2, m2, [ev])
        else
          match fillLoop p at_most fuel b2 m2 (total + r.toNat) with
          | (res, b3, m3, evs) => (res, b3, m3, ev :: evs)

/-- The configuration consulted by the injected logging block. -/
structure Options where
  NodeType : Bool

/-- `buf_read_from_tls(buf, tls, at_most)`: the two `BUG()` overflow guards
(returning `-1`), the read loop, and — on any non-error completion, when
`get_options()->NodeType` is set — the injected block that captures the
remote peer's address and port via `getpeername` and logs them with a
timestamp and the byte count. -/
def buf_read_from_tls (p : Policy) (opts : Options) (now : Nat)
    (b : Buf) (m : TlsMock) (at_most : Nat) : Res × Buf × TlsMock × List Event :=
  if INT_MAX ≤ b.datalen then (Res.err (-1), b, m, [])
  else if usubIntMax at_most ≤ b.datalen then (Res.err (-1), b, m, [])
  else
    match fillLoop p at_most (at_most + 1) b m 0 with
    | (Res.ok total, b2, m2, evs) =>
      if opts.NodeType then
        (Res.ok total, b2, m2,
          evs ++ [Event.logPeer m.peerIp m.peerPort now total])
      else (Res.ok total, b2, m2, evs)
    | out => out

/-! ### The write path: `flush_chunk_tls` and `buf_flush_to_tls` -/

/-- This iteration's target length in `buf_flush_to_tls`: the lesser of the
remaining requested size `sz` and the head chunk's buffered length, or 0
when the buffer is empty. -/
def flushTarget (b : Buf) (sz : Int) : Nat :=
  match b.chunks.head? with
  | some h => if sz ≤ (h.datalen : Int) then sz.toNat else h.datalen
  | none => 0

/-- The result of `tor_tls_write` when offered `sz` bytes: an accepting
transport takes at most what is offered, an erroring one returns its code. -/
def writeResult (step : WriteStep) (sz : Nat) : Int :=
  match step with
  | WriteStep.accept k => ((min k sz : Nat) : Int)
  | WriteStep.err c => c

/-- `flush_chunk_tls(tls, buf, chunk, sz, buf_flushlen)`: raise `sz` to the
transport's forced write size, assert it fits in the chunk (or is 0 when
there is no chunk), call `tor_tls_write`; on success deduct the bytes
written from `*buf_flushlen` (floored at 0) and drain the buffer by them. -/
def flush_chunk_tls (m : TlsMock) (b : Buf) (chunk? : Option Chunk)
    (sz0 : Nat) (buf_flushlen : Nat) : Res × Buf × TlsMock × Nat × List Event :=
  match nextWrite m with
  | (forced, step, m2) =>
    let sz := max sz0 forced
    let data? : Option (List Byte) :=
      match chunk? with
      | some c => if sz ≤ c.datalen then some (c.data.take sz) else none
      | none => if sz = 0 then some [] else none
    match data? with
    | none => (Res.assertFail, b, m2, buf_flushlen, [])
    | some data =>
      let r : Int := writeResult step sz
      if r < 0 then (Res.err r, b, m2, buf_flushlen, [Event.writeCall sz data r])
      else
        let bf2 := if r.toNat < buf_flushlen then buf_flushlen - r.toNat else 0
        match buf_drain b r.toNat with
        | none => (Res.assertFail, b, m2, bf2, [Event.writeCall sz data r])
        | some b2 => (Res.ok r.toNat, b2, m2, bf2, [Event.writeCall sz data r])

/-- The `do ... while (sz > 0)` loop of `buf_flush_to_tls`, with fuel
(`flushlen + 1` iterations always suffice: every continuing iteration wrote
at least one byte off `sz`). -/
def flushLoop : Nat → Buf → TlsMock → Int → Nat → Nat →
    Res × Buf × TlsMock × Nat × List Event
  | 0, b, m, _, bf, _ => (Res.spin, b, m, bf, [])
  | fuel + 1, b, m, sz, bf, flushed =>
    match flush_chunk_tls m b b.chunks.head? (flushTarget b sz) bf with
    | (Res.ok r, b2, m2, bf2, evs) =>
      if r = 0 then
        (if INT_MAX ≤ flushed + r then Res.assertFail else Res.ok (flushed + r),
         b2, m2, bf2, evs)
      else if 0 < sz - (r : Int) then
        match flushLoop fuel b2 m2 (sz - (r : Int)) bf2 (flushed + r) with
        | (res, b3, m3, bf3, evs2) => (res, b3, m3, bf3, evs ++ evs2)
      else
        (if INT_MAX ≤ flushed + r then Res.assertFail else Res.ok (flushed + r),
         b2, m2, bf2, evs)
    | out => out

/-- `buf_flush_to_tls(buf, tls, flushlen, buf_flushlen)`: the two `BUG()`
saturations (`*buf_flushlen` down to `buf->datalen`, then `flushlen` down to
`*buf_flushlen`), then the write loop — entered at least once even when
`flushlen` is 0, to let the transport flush a forced partial record. -/
def buf_flush_to_tls (b : Buf) (m : TlsMock) (flushlen : Nat)
    (buf_flushlen : Nat) : Res × Buf × TlsMock × Nat × List Event :=
  let bf1 := if b.datalen < buf_flushlen then b.datalen else buf_flushlen
  let fl1 := if bf1 < flushlen then bf1 else flushlen
  flushLoop (fl1 + 1) b m (fl1 : Int) bf1 0

/-! ### Whole-scenario runners (round-trip property) -/

/-- Run a sequence of `buf_read_from_tls` calls, each with its own read
script and `at_most`; `none` if any call does not return normally. -/
def runFills (p : Policy) (opts : Options) :
    Buf → List (List ReadStep × Nat) → Option (Buf × List Event)
  | b, [] => some (b, [])
  | b, (script, at_most) :: rest =>
    match buf_read_from_tls p opts 0 b
        { reads := script, writes := [], peerIp := "", peerPort := 0 } at_most with
    | (Res.ok _, b2, _, evs) =>
      match runFills p opts b2 rest with
      | some (b3, evs2) => some (b3, evs ++ evs2)
      | none => none
    | _ => none

/-- Run a sequence of `buf_flush_to_tls` calls, each with its own write
script, `flushlen` and budget; `none` if any call does not return
normally. -/
def runFlushes : Buf → List (List (Nat × WriteStep) × Nat × Nat) →
    Option (Buf × List Event)
  | b, [] => some (b, [])
  | b, (script, flushlen, budget) :: rest =>
    match buf_flush_to_tls b
        { reads := [], writes := script, peerIp := "", peerPort := 0 }
        flushlen budget with
    | (Res.ok _, b2, _, _, evs) =>
      match runFlushes b2 rest with
      | some (b3, evs2) => some (b3, evs ++ evs2)
      | none => none
    | _ => none

/-- Well-formedness of a list of fill scripts. -/
def wfReadScripts : List (List ReadStep × Nat) → Bool
  | [] => true
  | (s, _) :: r => wfReads s && wfReadScripts r

/-- Well-formedness of a list of flush scripts. -/
def wfWriteScripts : List (List (Nat × WriteStep) × Nat × Nat) → Bool
  | [] => true
  | (s, _, _) :: r => wfWrites s && wfWriteScripts r

/-! ### Basic lemmas about chunk lists and traces -/

theorem bytesOfChunks_append (cs ds : List Chunk) :
    bytesOfChunks (cs ++ ds) = bytesOfChunks cs ++ bytesOfChunks ds := by
  induction cs with
  | nil => simp [bytesOfChunks]
  | cons c cs ih => simp [bytesOfChunks, ih]

theorem bytesOf_mapLast_append (bs : List Byte) :
    ∀ cs : List Chunk, cs ≠ [] →
      bytesOfChunks (mapLast (fun c => { c with data := c.data ++ bs }) cs) =
        bytesOfChunks cs ++ bs
  | [], h => absurd rfl h
  | [c], _ => by simp [mapLast, bytesOfChunks]
  | c :: c2 :: cs, _ => by
    have ih := bytesOf_mapLast_append bs (c2 :: cs) (by simp)
    simp only [mapLast, bytesOfChunks, ih, List.append_assoc]

theorem lastC_ne_nil : ∀ cs : List Chunk, ∀ t : Chunk, lastC cs = some t → cs ≠ []
  | [], t, h => by simp [lastC] at h
  | c :: cs, _, _ => by simp

theorem bytesOfChunks_drain :
    ∀ (cs : List Chunk) (n : Nat),
      bytesOfChunks (drainChunks cs n) = (bytesOfChunks cs).drop n
  | cs, 0 => by simp [drainChunks]
  | [], n + 1 => by simp [drainChunks, bytesOfChunks]
  | c :: cs, n + 1 => by
    simp only [drainChunks]
    split
    · have ih := bytesOfChunks_drain cs (n + 1 - c.datalen)
      rw [ih]
      have hdl : c.datalen + (n + 1 - c.datalen) = n + 1 := by omega
      calc (bytesOfChunks cs).drop (n + 1 - c.datalen)
          = ((c.data ++ bytesOfChunks cs).drop c.data.length).drop
              (n + 1 - c.datalen) := by
            rw [List.drop_left]
        _ = (c.data ++ bytesOfChunks cs).drop (n + 1) := by
            rw [List.drop_drop]
            rw [show c.data.length + (n + 1 - c.datalen) = n + 1 from by
              simp only [Chunk.datalen] at hdl ⊢; omega]
        _ = (bytesOfChunks (c :: cs)).drop (n + 1) := rfl
    · rename_i hgt
      have hle : n + 1 ≤ c.data.length := by
        simp only [Chunk.datalen] at hgt; omega
      simp only [bytesOfChunks]
      rw [List.drop_append_of_le_length hle]

theorem head_datalen_le (cs : List Chunk) (h : Chunk)
    (hh : cs.head? = some h) : h.datalen ≤ (bytesOfChunks cs).length := by
  cases cs with
  | nil => simp at hh
  | cons c cs =>
    simp only [List.head?_cons, Option.some.injEq] at hh
    subst hh
    simp [bytesOfChunks, Chunk.datalen]

theorem readYields_append (evs1 evs2 : List Event) :
    readYields (evs1 ++ evs2) = readYields evs1 ++ readYields evs2 := by
  induction evs1 with
  | nil => simp [readYields]
  | cons e evs ih => cases e <;> simp [readYields, ih]

theorem writeAccepted_append (evs1 evs2 : List Event) :
    writeAccepted (evs1 ++ evs2) = writeAccepted evs1 ++ writeAccepted evs2 := by
  induction evs1 with
  | nil => simp [writeAccepted]
  | cons e evs ih => cases e <;> simp [writeAccepted, ih]

theorem readEvents_append (evs1 evs2 : List Event) :
    readEvents (evs1 ++ evs2) = readEvents evs1 ++ readEvents evs2 := by
  induction evs1 with
  | nil => simp [readEvents]
  | cons e evs ih => cases e <;> simp [readEvents, ih]

/-! ### Lemmas about the transport mock -/

theorem tor_tls_read_spec (m : TlsMock) (n : Nat) (hwf : wfReads m.reads = true) :
    ((tor_tls_read m n).1 < 0 ∧ (tor_tls_read m n).2.1 = []) ∨
      (0 ≤ (tor_tls_read m n).1 ∧
        (tor_tls_read m n).2.1.length = (tor_tls_read m n).1.toNat ∧
        (tor_tls_read m n).2.1.length ≤ n) := by
  rcases m with ⟨reads, writes, ip, port⟩
  cases reads with
  | nil => right; simp [tor_tls_read]
  | cons s rest =>
    cases s with
    | yield bs =>
      right
      simp only [tor_tls_read, List.length_take]
      refine ⟨by positivity, ?_, by omega⟩
      omega
    | err c =>
      left
      simp only [wfReads, Bool.and_eq_true, decide_eq_true_eq] at hwf
      simp [tor_tls_read, hwf.1]

theorem tor_tls_read_wf (m : TlsMock) (n : Nat) (hwf : wfReads m.reads = true) :
    wfReads (tor_tls_read m n).2.2.reads = true := by
  rcases m with ⟨reads, writes, ip, port⟩
  cases reads with
  | nil => simpa [tor_tls_read] using hwf
  | cons s rest =>
    cases s with
    | yield bs => simpa [tor_tls_read, wfReads] using hwf
    | err c =>
      simp only [wfReads, Bool.and_eq_true, decide_eq_true_eq] at hwf
      simpa [tor_tls_read] using hwf.2

theorem tor_tls_read_neg (m : TlsMock) (n : Nat)
    (h : (tor_tls_read m n).1 < 0) : (tor_tls_read m n).2.1 = [] := by
  rcases m with ⟨reads, writes, ip, port⟩
  cases reads with
  | nil => simp [tor_tls_read]
  | cons s rest =>
    cases s with
    | yield bs =>
      exfalso
      simp only [tor_tls_read] at h
      omega
    | err c => simp [tor_tls_read]

/-! ### Lemmas about the read path -/

theorem read_to_chunk_spec (b : Buf) (m : TlsMock) (n : Nat) (r : Int)
    (b2 : Buf) (m2 : TlsMock) (ev : Event)
    (h : read_to_chunk_tls b m n = some (r, b2, m2, ev)) :
    ∃ bs : List Byte, ev = Event.readCall n r bs ∧ m2 = (tor_tls_read m n).2.2 ∧
      ((r < 0 ∧ b2 = b ∧ bs = []) ∨
        (0 ≤ r ∧ bytesOf b2 = bytesOf b ++ bs ∧
          b2.datalen = b.datalen + r.toNat ∧
          (wfReads m.reads = true → bs.length = r.toNat ∧ bs.length ≤ n))) := by
  unfold read_to_chunk_tls at h
  split at h
  · exact absurd h (by simp)
  rename_i t hl
  split at h
  swap
  · exact absurd h (by simp)
  rename_i hcap
  rcases htr : tor_tls_read m n with ⟨r0, bs0, m0⟩
  rw [htr] at h
  dsimp only at h
  by_cases hneg : r0 < 0
  · rw [if_pos hneg] at h
    simp only [Option.some.injEq, Prod.mk.injEq] at h
    obtain ⟨hr, hb, hm, hev⟩ := h
    subst hr hb hm hev
    refine ⟨bs0, rfl, by simp [htr], Or.inl ⟨hneg, rfl, ?_⟩⟩
    have := tor_tls_read_neg m n (by rw [htr]; exact hneg)
    rw [htr] at this
    exact this
  · rw [if_neg hneg] at h
    simp only [Option.some.injEq, Prod.mk.injEq] at h
    obtain ⟨hr, hb, hm, hev⟩ := h
    subst hr hm hev
    refine ⟨bs0, rfl, by simp [htr], Or.inr ⟨by omega, ?_, ?_, ?_⟩⟩
    · rw [← hb]
      simp only [bytesOf]
      exact bytesOf_mapLast_append bs0 b.chunks (lastC_ne_nil b.chunks t hl)
    · rw [← hb]
    · intro hwf
      rcases tor_tls_read_spec m n hwf with ⟨hlt, _⟩ | ⟨_, hlen, hle⟩
      · rw [htr] at hlt; exact absurd hlt hneg
      · rw [htr] at hlen hle
        exact ⟨hlen, hle⟩

theorem fill_chunk_choice_bytes (p : Policy) (b : Buf) (at_most total : Nat) :
    bytesOf (fill_chunk_choice p b at_most total).1 = bytesOf b ∧
      (fill_chunk_choice p b at_most total).1.datalen = b.datalen := by
  unfold fill_chunk_choice
  rcases hl : lastC b.chunks with _ | t
  · simp [buf_add_chunk_with_capacity, bytesOf, bytesOfChunks_append, bytesOfChunks]
  · by_cases hc : CHUNK_REMAINING_CAPACITY t < p.minReadLen
    · simp [hc, buf_add_chunk_with_capacity, bytesOf, bytesOfChunks_append,
        bytesOfChunks]
    · simp [hc]

theorem dropLast_cons_ne_nil {α : Type} (a : α) {l : List α} (h : l ≠ []) :
    (a :: l).dropLast = a :: l.dropLast := by
  cases l with
  | nil => exact absurd rfl h
  | cons x xs => simp [List.dropLast]

/-- Master invariant of the fill loop: content and length accounting, trace
shape, mock well-formedness preservation, the structure of error returns,
the returned total, and the fact that every non-final read was full. -/
theorem fillLoop_master (p : Policy) (at_most : Nat) :
    ∀ (fuel : Nat) (b : Buf) (m : TlsMock) (total : Nat),
      wfReads m.reads = true →
      bytesOf (fillLoop p at_most fuel b m total).2.1 =
          bytesOf b ++ readYields (fillLoop p at_most fuel b m total).2.2.2 ∧
        (fillLoop p at_most fuel b m total).2.1.datalen =
          b.datalen + (readYields (fillLoop p at_most fuel b m total).2.2.2).length ∧
        wfReads (fillLoop p at_most fuel b m total).2.2.1.reads = true ∧
        readEvents (fillLoop p at_most fuel b m total).2.2.2 =
          (fillLoop p at_most fuel b m total).2.2.2 ∧
        (∀ c : Int, (fillLoop p at_most fuel b m total).1 = Res.err c →
          c < 0 ∧ ∃ evs0 k, (fillLoop p at_most fuel b m total).2.2.2 =
            evs0 ++ [Event.readCall k c []]) ∧
        (∀ t : Nat, (fillLoop p at_most fuel b m total).1 = Res.ok t →
          t = total + (readYields (fillLoop p at_most fuel b m total).2.2.2).length) ∧
        (∀ e ∈ (fillLoop p at_most fuel b m total).2.2.2.dropLast,
          isFullRead e = true) := by
  intro fuel
  induction fuel with
  | zero =>
    intro b m total hwf
    simp [fillLoop, readYields, readEvents, hwf]
  | succ fuel ih =>
    intro b m total hwf
    by_cases hguard : at_most ≤ total
    · simp [fillLoop, hguard, readYields, readEvents, hwf]
    · obtain ⟨hcb, hcd⟩ := fill_chunk_choice_bytes p b at_most total
      rcases hrc : read_to_chunk_tls (fill_chunk_choice p b at_most total).1 m
          (fill_chunk_choice p b at_most total).2 with _ | ⟨r, b2, m2, ev⟩
      · simp [fillLoop, hguard, hrc, readYields, readEvents, hcb, hcd, hwf]
      · obtain ⟨bs, hev, hm2, hcase⟩ :=
          read_to_chunk_spec _ m _ r b2 m2 ev hrc
        have hwf2 : wfReads m2.reads = true := by
          rw [hm2]; exact tor_tls_read_wf m _ hwf
        by_cases hneg : r < 0
        · rcases hcase with ⟨_, hb2, hbs⟩ | ⟨hge, _⟩
          swap
          · omega
          subst hev hbs hb2
          simp [fillLoop, hguard, hrc, hneg, readYields, readEvents,
            isFullRead, hcb, hcd, hwf2]
          exact ⟨[], (fill_chunk_choice p b at_most total).2, rfl⟩
        · rcases hcase with ⟨hlt, _⟩ | ⟨hge, hby, hdl, hwflen⟩
          · omega
          obtain ⟨hlen, hlelen⟩ := hwflen hwf
          rw [hcb] at hby
          rw [hcd] at hdl
          by_cases hint : INT_MAX ≤ total + r.toNat
          · subst hev
            simp [fillLoop, hguard, hrc, hneg, hint, readYields, readEvents,
              hby, hdl, hlen, hwf2]
          · by_cases hshort : r.toNat < (fill_chunk_choice p b at_most total).2
            · subst hev
              simp [fillLoop, hguard, hrc, hneg, hint, hshort, readYields,
                readEvents, hby, hdl, hlen, hwf2]
            · rcases hrec : fillLoop p at_most fuel b2 m2 (total + r.toNat)
                with ⟨res, b3, m3, evs⟩
              have IH := ih b2 m2 (total + r.toNat) hwf2
              rw [hrec] at IH
              obtain ⟨ihby, ihdl, ihwf, ihre, iherr, ihok, ihfull⟩ := IH
              have hfull : isFullRead ev = true := by
                subst hev
                simp only [isFullRead, beq_iff_eq]
                omega
              subst hev
              have hout : fillLoop p at_most (fuel + 1) b m total =
                  (res, b3, m3,
                    Event.readCall (fill_chunk_choice p b at_most total).2 r bs
                      :: evs) := by
                simp [fillLoop, hguard, hrc, hneg, hint, hshort, hrec]
              rw [hout]
              dsimp only at ihby ihdl ihwf ihre iherr ihok ihfull ⊢
              refine ⟨?_, ?_, ihwf, ?_, ?_, ?_, ?_⟩
              · rw [ihby, hby, readYields]
                simp [List.append_assoc]
              · rw [ihdl, hdl, readYields]
                simp only [List.length_append, hlen]
                omega
              · rw [readEvents, ihre]
              · intro c hc
                obtain ⟨hcneg, evs0, k, hsplit⟩ := iherr c hc
                exact ⟨hcneg, Event.readCall (fill_chunk_choice p b at_most total).2 r bs
                  :: evs0, k, by rw [hsplit]; rfl⟩
              · intro t ht
                have := ihok t ht
                rw [readYields]
                simp only [List.length_append, hlen] at this ⊢
                omega
              · intro e he
                by_cases hevs : evs = []
                · subst hevs
                  simp at he
                · rw [dropLast_cons_ne_nil _ hevs] at he
                  rcases List.mem_cons.mp he with heq | hmem
                  · subst heq; exact hfull
                  · exact ihfull e hmem

/-! ### Lemmas about the write path -/

theorem nextWrite_forced (m : TlsMock) : (nextWrite m).1 = peekForced m := by
  rcases m with ⟨reads, writes, ip, port⟩
  cases writes with
  | nil => rfl
  | cons w rest => rcases w with ⟨f, s⟩; rfl

theorem nextWrite_wf (m : TlsMock) (hwf : wfWrites m.writes = true) :
    (∀ c : Int, (nextWrite m).2.1 = WriteStep.err c → c < 0) ∧
      wfWrites (nextWrite m).2.2.writes = true := by
  rcases m with ⟨reads, writes, ip, port⟩
  cases writes with
  | nil => exact ⟨by intro c hc; simp [nextWrite] at hc, hwf⟩
  | cons w rest =>
    rcases w with ⟨f, s⟩
    cases s with
    | accept k =>
      refine ⟨by intro c hc; simp [nextWrite] at hc, ?_⟩
      simpa [nextWrite, wfWrites] using hwf
    | err c0 =>
      simp only [wfWrites, Bool.and_eq_true, decide_eq_true_eq] at hwf
      refine ⟨?_, by simpa [nextWrite] using hwf.2⟩
      intro c hc
      simp only [nextWrite] at hc
      cases hc
      exact hwf.1

theorem buf_drain_spec (b : Buf) (n : Nat) (b2 : Buf)
    (h : buf_drain b n = some b2) :
    n ≤ b.datalen ∧ b2.datalen = b.datalen - n ∧
      bytesOf b2 = (bytesOf b).drop n := by
  unfold buf_drain at h
  split at h
  · exact absurd h (by simp)
  rename_i hge
  simp only [Option.some.injEq] at h
  subst h
  exact ⟨by omega, rfl, bytesOfChunks_drain b.chunks n⟩

theorem flushTarget_le (b : Buf) (sz : Int) (h : Chunk)
    (hh : b.chunks.head? = some h) : flushTarget b sz ≤ h.datalen := by
  unfold flushTarget
  rw [hh]
  dsimp only
  split <;> omega

theorem flushTarget_none (b : Buf) (sz : Int) (hh : b.chunks.head? = none) :
    flushTarget b sz = 0 := by
  unfold flushTarget
  rw [hh]

theorem flushTarget_eq_min (b : Buf) (sz : Int) (hsz : 0 ≤ sz) (h : Chunk)
    (hh : b.chunks.head? = some h) :
    flushTarget b sz = min sz.toNat h.datalen := by
  unfold flushTarget
  rw [hh]
  dsimp only
  split <;> omega

/-- The write event a `flush_chunk_tls` call emits (when it emits one) has
exactly the resolved size `max sz0 forced`, and its data is the prefix of
the chunk's data of that size. -/
theorem flush_chunk_events (m : TlsMock) (b : Buf) (chunk? : Option Chunk)
    (sz0 bf : Nat) (s : Nat) (d : List Byte) (r : Int)
    (h : Event.writeCall s d r ∈ (flush_chunk_tls m b chunk? sz0 bf).2.2.2.2) :
    s = max sz0 (peekForced m) ∧
      d = (match chunk? with | some c => c.data.take s | none => []) := by
  unfold flush_chunk_tls at h
  rcases hnw : nextWrite m with ⟨forced, step, m0⟩
  rw [hnw] at h
  dsimp only at h
  have hforced : forced = peekForced m := by
    rw [← nextWrite_forced m, hnw]
  subst hforced
  split at h
  · simp at h
  · rename_i data hdata
    split at h
    · simp only [List.mem_singleton] at h
      cases h
      constructor
      · rfl
      · rcases chunk? with _ | c
        · simp only at hdata
          split at hdata
          · simpa using hdata.symm
          · simp at hdata
        · simp only at hdata
          split at hdata
          · simpa using hdata.symm
          · simp at hdata
    · split at h
      all_goals
        simp only [List.mem_singleton] at h
        cases h
        constructor
        · rfl
        · rcases chunk? with _ | c
          · simp only at hdata
            split at hdata
            · simpa using hdata.symm
            · simp at hdata
          · simp only at hdata
            split at hdata
            · simpa using hdata.symm
            · simp at hdata

theorem writeResult_le (step : WriteStep) (sz : Nat)
    (hstep : ∀ c : Int, step = WriteStep.err c → c < 0)
    (hge : 0 ≤ writeResult step sz) : (writeResult step sz).toNat ≤ sz := by
  cases step with
  | accept k =>
    simp only [writeResult, Int.toNat_natCast]
    omega
  | err c =>
    exfalso
    have := hstep c rfl
    simp only [writeResult] at hge
    omega

/-- A successful `flush_chunk_tls` drains exactly the reported bytes off the
buffer's counters and content, and decrements the budget by the same count,
saturating at zero. -/
theorem flush_chunk_ok_spec (m : TlsMock) (b : Buf) (chunk? : Option Chunk)
    (sz0 bf : Nat) (r : Nat) (b2 : Buf) (m2 : TlsMock) (bf2 : Nat)
    (evs : List Event)
    (h : flush_chunk_tls m b chunk? sz0 bf = (Res.ok r, b2, m2, bf2, evs)) :
    r ≤ b.datalen ∧ b2.datalen = b.datalen - r ∧
      bytesOf b2 = (bytesOf b).drop r ∧ bf2 = bf - r ∧
      m2 = (nextWrite m).2.2 := by
  unfold flush_chunk_tls at h
  rcases hnw : nextWrite m with ⟨forced, step, m0⟩
  rw [hnw] at h
  dsimp only at h
  split at h
  · exact absurd h (by simp)
  rename_i data hdata
  split at h
  · exact absurd h (by simp)
  rename_i hneg
  split at h
  · exact absurd h (by simp)
  rename_i b3 hdrain
  simp only [Prod.mk.injEq, Res.ok.injEq] at h
  obtain ⟨hr, hb, hm, hbf, hev⟩ := h
  subst hr hb hm hbf
  obtain ⟨hle, hdl, hby⟩ := buf_drain_spec b _ b3 hdrain
  refine ⟨hle, hdl, hby, by split <;> omega, by simp [hnw]⟩

/-- A failed `flush_chunk_tls` write propagates the transport's negative
code, leaves the buffer and budget untouched, and its only event is the
failed write call. -/
theorem flush_chunk_err_spec (m : TlsMock) (b : Buf) (chunk? : Option Chunk)
    (sz0 bf : Nat) (c : Int) (b2 : Buf) (m2 : TlsMock) (bf2 : Nat)
    (evs : List Event)
    (h : flush_chunk_tls m b chunk? sz0 bf = (Res.err c, b2, m2, bf2, evs)) :
    c < 0 ∧ b2 = b ∧ bf2 = bf ∧ m2 = (nextWrite m).2.2 ∧
      ∃ s d, evs = [Event.writeCall s d c] := by
  unfold flush_chunk_tls at h
  rcases hnw : nextWrite m with ⟨forced, step, m0⟩
  rw [hnw] at h
  dsimp only at h
  split at h
  · exact absurd h (by simp)
  rename_i data hdata
  split at h
  · rename_i hneg
    simp only [Prod.mk.injEq, Res.err.injEq] at h
    obtain ⟨hr, hb, hm, hbf, hev⟩ := h
    subst hr hb hm hbf
    exact ⟨hneg, rfl, rfl, rfl, _, _, hev.symm⟩
  · rename_i hneg
    split at h
    · exact absurd h (by simp)
    · exact absurd h (by simp)

/-- Content invariant of one `flush_chunk_tls` call (as invoked by the
flush loop, on the buffer's head chunk, with a well-formed transport and a
consistent length counter): the bytes the transport accepted followed by
the remaining buffer content reconstruct the original content; counter
consistency and script well-formedness are preserved. -/
theorem flush_chunk_content (m : TlsMock) (b : Buf) (sz0 bf : Nat)
    (hwf : wfWrites m.writes = true) (hlen : b.datalen = (bytesOf b).length) :
    writeAccepted (flush_chunk_tls m b b.chunks.head? sz0 bf).2.2.2.2 ++
        bytesOf (flush_chunk_tls m b b.chunks.head? sz0 bf).2.1 = bytesOf b ∧
      (flush_chunk_tls m b b.chunks.head? sz0 bf).2.1.datalen =
        (bytesOf (flush_chunk_tls m b b.chunks.head? sz0 bf).2.1).length ∧
      wfWrites (flush_chunk_tls m b b.chunks.head? sz0 bf).2.2.1.writes = true := by
  obtain ⟨hstep, hwf2⟩ := nextWrite_wf m hwf
  unfold flush_chunk_tls
  rcases hnw : nextWrite m with ⟨forced, step, m0⟩
  rw [hnw] at hstep hwf2
  dsimp only at hstep hwf2 ⊢
  split
  · rename_i hdata
    simp [writeAccepted, hlen, hwf2]
  rename_i data hdata
  split
  · rename_i hneg
    have h0 : (writeResult step (max sz0 forced)).toNat = 0 := by omega
    simp [writeAccepted, h0, hlen, hwf2]
  rename_i hneg
  have hwrle : (writeResult step (max sz0 forced)).toNat ≤ max sz0 forced :=
    writeResult_le step _ hstep (by omega)
  -- the data offered to the write and the byte bound, from the asserts
  have hfacts : data.take (writeResult step (max sz0 forced)).toNat =
        (bytesOf b).take (writeResult step (max sz0 forced)).toNat ∧
      (writeResult step (max sz0 forced)).toNat ≤ (bytesOf b).length := by
    split at hdata
    · -- head chunk present
      rename_i hc hchunk
      split at hdata
      swap
      · exact absurd hdata (by simp)
      rename_i hsz
      simp only [Option.some.injEq] at hdata
      subst hdata
      have hbb : bytesOf b = hc.data ++ bytesOfChunks b.chunks.tail := by
        rcases hcs : b.chunks with _ | ⟨c0, cs⟩
        · rw [hcs] at hchunk; simp at hchunk
        · rw [hcs] at hchunk
          simp only [List.head?_cons, Option.some.injEq] at hchunk
          subst hchunk
          simp [bytesOf, bytesOfChunks, hcs]
      have hdle : hc.data.length ≤ (bytesOf b).length := by
        rw [hbb]
        simp
      constructor
      · rw [List.take_take]
        rw [show min (writeResult step (max sz0 forced)).toNat (max sz0 forced) =
          (writeResult step (max sz0 forced)).toNat from by omega]
        rw [hbb, List.take_append_of_le_length]
        simp only [Chunk.datalen] at hsz
        omega
      · simp only [Chunk.datalen] at hsz
        omega
    · -- empty buffer: the assert forces the resolved size to 0
      rename_i hchunk
      split at hdata
      swap
      · exact absurd hdata (by simp)
      rename_i hsz
      simp only [Option.some.injEq] at hdata
      subst hdata
      have h0 : (writeResult step (max sz0 forced)).toNat = 0 := by omega
      simp [h0]
  obtain ⟨hacc, hble⟩ := hfacts
  split
  · rename_i hdrain
    exfalso
    unfold buf_drain at hdrain
    split at hdrain
    · rename_i hlt
      rw [hlen] at hlt
      omega
    · exact absurd hdrain (by simp)
  · rename_i b3 hdrain
    obtain ⟨hle, hdl, hby⟩ := buf_drain_spec b _ b3 hdrain
    simp only [writeAccepted, List.append_nil]
    refine ⟨?_, ?_, hwf2⟩
    · rw [hacc, hby]
      exact List.take_append_drop _ _
    · rw [hdl, hby, hlen]
      simp only [List.length_drop]

/-- Under the conditions of the flush loop (a well-formed transport, a
consistent length counter, a forced write size bounded by the head chunk's
data — zero on an empty buffer — and a target bounded the same way), the
assertions in `flush_chunk_tls` hold and it cannot abort. -/
theorem flush_chunk_no_assert (m : TlsMock) (b : Buf) (sz0 bf : Nat)
    (hwf : wfWrites m.writes = true) (hlen : b.datalen = (bytesOf b).length)
    (hsome : ∀ h : Chunk, b.chunks.head? = some h →
      sz0 ≤ h.datalen ∧ peekForced m ≤ h.datalen)
    (hnone : b.chunks.head? = none → sz0 = 0 ∧ peekForced m = 0) :
    (flush_chunk_tls m b b.chunks.head? sz0 bf).1 ≠ Res.assertFail := by
  obtain ⟨hstep, hwf2⟩ := nextWrite_wf m hwf
  unfold flush_chunk_tls
  rcases hnw : nextWrite m with ⟨forced, step, m0⟩
  have hforced : forced = peekForced m := by rw [← nextWrite_forced m, hnw]
  rw [hnw] at hstep
  dsimp only
  have hdata : (match b.chunks.head? with
      | some c => if max sz0 forced ≤ c.datalen then
          some (c.data.take (max sz0 forced)) else none
      | none => if max sz0 forced = 0 then some [] else none) ≠ none := by
    rcases hchunk : b.chunks.head? with _ | hc
    · obtain ⟨h1, h2⟩ := hnone hchunk
      subst hforced
      simp [h1, h2]
    · obtain ⟨h1, h2⟩ := hsome hc hchunk
      subst hforced
      simp only
      rw [if_pos (by omega)]
      simp
  split
  · rename_i hd
    exact absurd hd hdata
  rename_i data hd
  split
  · simp
  rename_i hneg
  have hwrle : (writeResult step (max sz0 forced)).toNat ≤ max sz0 forced :=
    writeResult_le step _ hstep (by omega)
  split
  · rename_i hdrain
    exfalso
    unfold buf_drain at hdrain
    split at hdrain
    swap
    · exact absurd hdrain (by simp)
    rename_i hlt
    rcases hchunk : b.chunks.head? with _ | hc
    · obtain ⟨h1, h2⟩ := hnone hchunk
      subst hforced
      omega
    · obtain ⟨h1, h2⟩ := hsome hc hchunk
      have hdle : hc.datalen ≤ (bytesOf b).length :=
        head_datalen_le b.chunks hc hchunk
      subst hforced
      omega
  · simp

/-- Master invariant of the flush loop: the bytes the transport accepted,
followed by the remaining buffer content, reconstruct the original content;
counter consistency and script well-formedness are preserved; an error
return carries a negative code and ends the trace with the failing write. -/
theorem flushLoop_master :
    ∀ (fuel : Nat) (b : Buf) (m : TlsMock) (sz : Int) (bf flushed : Nat),
      wfWrites m.writes = true → b.datalen = (bytesOf b).length →
      writeAccepted (flushLoop fuel b m sz bf flushed).2.2.2.2 ++
          bytesOf (flushLoop fuel b m sz bf flushed).2.1 = bytesOf b ∧
        (flushLoop fuel b m sz bf flushed).2.1.datalen =
          (bytesOf (flushLoop fuel b m sz bf flushed).2.1).length ∧
        wfWrites (flushLoop fuel b m sz bf flushed).2.2.1.writes = true ∧
        (∀ c : Int, (flushLoop fuel b m sz bf flushed).1 = Res.err c →
          c < 0 ∧ ∃ evs0 s d, (flushLoop fuel b m sz bf flushed).2.2.2.2 =
            evs0 ++ [Event.writeCall s d c]) := by
  intro fuel
  induction fuel with
  | zero =>
    intro b m sz bf flushed hwf hlen
    simp [flushLoop, writeAccepted, hwf, hlen]
  | succ fuel ih =>
    intro b m sz bf flushed hwf hlen
    have hcont := flush_chunk_content m b (flushTarget b sz) bf hwf hlen
    rcases hfc : flush_chunk_tls m b b.chunks.head? (flushTarget b sz) bf
      with ⟨res0, b2, m2, bf2, evs0⟩
    rw [hfc] at hcont
    obtain ⟨hinv, hlen2, hwf3⟩ := hcont
    dsimp only at hinv hlen2 hwf3
    cases res0 with
    | ok r =>
      by_cases hr0 : r = 0
      · subst hr0
        have hout : flushLoop (fuel + 1) b m sz bf flushed =
            (if INT_MAX ≤ flushed + 0 then Res.assertFail
              else Res.ok (flushed + 0), b2, m2, bf2, evs0) := by
          simp [flushLoop, hfc]
        rw [hout]
        refine ⟨hinv, hlen2, hwf3, ?_⟩
        intro c hc
        split at hc <;> simp at hc
      · by_cases hsz : 0 < sz - (r : Int)
        · rcases hrec : flushLoop fuel b2 m2 (sz - (r : Int)) bf2 (flushed + r)
            with ⟨res, b3, m3, bf3, evs2⟩
          have IH := ih b2 m2 (sz - (r : Int)) bf2 (flushed + r) hwf3 hlen2
          rw [hrec] at IH
          obtain ⟨ihinv, ihlen, ihwf, iherr⟩ := IH
          dsimp only at ihinv ihlen ihwf iherr
          have hout : flushLoop (fuel + 1) b m sz bf flushed =
              (res, b3, m3, bf3, evs0 ++ evs2) := by
            simp [flushLoop, hfc, hr0, hsz, hrec]
          rw [hout]
          dsimp only
          refine ⟨?_, ihlen, ihwf, ?_⟩
          · rw [writeAccepted_append, List.append_assoc, ihinv, hinv]
          · intro c hc
            obtain ⟨hcneg, evs1, s, d, hsplit⟩ := iherr c hc
            exact ⟨hcneg, evs0 ++ evs1, s, d,
              by rw [hsplit, List.append_assoc]⟩
        · have hout : flushLoop (fuel + 1) b m sz bf flushed =
              (if INT_MAX ≤ flushed + r then Res.assertFail
                else Res.ok (flushed + r), b2, m2, bf2, evs0) := by
            simp [flushLoop, hfc, hr0, hsz]
          rw [hout]
          refine ⟨hinv, hlen2, hwf3, ?_⟩
          intro c hc
          split at hc <;> simp at hc
    | err c0 =>
      have hout : flushLoop (fuel + 1) b m sz bf flushed =
          (Res.err c0, b2, m2, bf2, evs0) := by
        simp [flushLoop, hfc]
      rw [hout]
      obtain ⟨hcneg, _, _, _, s, d, hevs⟩ :=
        flush_chunk_err_spec m b b.chunks.head? (flushTarget b sz) bf c0 b2 m2
          bf2 evs0 hfc
      refine ⟨hinv, hlen2, hwf3, ?_⟩
      intro c hc
      simp only [Res.err.injEq] at hc
      subst hc
      exact ⟨hcneg, [], s, d, by rw [hevs]; rfl⟩
    | assertFail =>
      have hout : flushLoop (fuel + 1) b m sz bf flushed =
          (Res.assertFail, b2, m2, bf2, evs0) := by
        simp [flushLoop, hfc]
      rw [hout]
      exact ⟨hinv, hlen2, hwf3, by intro c hc; simp at hc⟩
    | spin =>
      have hout : flushLoop (fuel + 1) b m sz bf flushed =
          (Res.spin, b2, m2, bf2, evs0) := by
        simp [flushLoop, hfc]
      rw [hout]
      exact ⟨hinv, hlen2, hwf3, by intro c hc; simp at hc⟩

/-! ### Wrapper-level lemmas -/

theorem usubIntMax_of_le (n : Nat) (h : n ≤ INT_MAX) :
    usubIntMax n = INT_MAX - n := by
  unfold usubIntMax INT_MAX SIZE_MOD at *
  omega

/-- A normal return of `buf_read_from_tls` appended exactly the bytes the
transport delivered, returned their count, and its read events are the
whole loop trace (only the peer-logging event can follow them). -/
theorem buf_read_ok_spec (p : Policy) (opts : Options) (now : Nat) (b : Buf)
    (m : TlsMock) (n : Nat) (t : Nat) (b2 : Buf) (m2 : TlsMock)
    (evs : List Event) (hwf : wfReads m.reads = true)
    (h : buf_read_from_tls p opts now b m n = (Res.ok t, b2, m2, evs)) :
    bytesOf b2 = bytesOf b ++ readYields evs ∧
      b2.datalen = b.datalen + (readYields evs).length ∧
      t = (readYields evs).length ∧
      readEvents evs = readEvents (fillLoop p n (n + 1) b m 0).2.2.2 ∧
      (∀ e ∈ (readEvents evs).dropLast, isFullRead e = true) := by
  have H := fillLoop_master p n (n + 1) b m 0 hwf
  unfold buf_read_from_tls at h
  split at h
  · exact absurd h (by simp)
  split at h
  · exact absurd h (by simp)
  rcases hloop : fillLoop p n (n + 1) b m 0 with ⟨res, b3, m3, evs3⟩
  rw [hloop] at h H
  obtain ⟨hby, hdl, hwf2, hre, herr, hok, hfull⟩ := H
  dsimp only at hby hdl hwf2 hre herr hok hfull
  cases res with
  | ok total =>
    dsimp only at h
    have htot := hok total rfl
    rw [Nat.zero_add] at htot
    by_cases hnt : opts.NodeType
    · rw [if_pos hnt] at h
      simp only [Prod.mk.injEq, Res.ok.injEq] at h
      obtain ⟨ht, hb, hm, hev⟩ := h
      subst ht hb hm
      rw [← hev]
      have hry : readYields (evs3 ++ [Event.logPeer m.peerIp m.peerPort now total]) =
          readYields evs3 := by
        rw [readYields_append]
        simp [readYields]
      have hrevs : readEvents (evs3 ++ [Event.logPeer m.peerIp m.peerPort now total]) =
          readEvents evs3 := by
        rw [readEvents_append]
        simp [readEvents]
      refine ⟨by rw [hry, hby], by rw [hry, hdl], by rw [hry]; exact htot,
        by rw [hrevs], ?_⟩
      rw [hrevs, hre]
      exact hfull
    · rw [if_neg hnt] at h
      simp only [Prod.mk.injEq, Res.ok.injEq] at h
      obtain ⟨ht, hb, hm, hev⟩ := h
      subst ht hb hm
      rw [← hev]
      refine ⟨hby, hdl, htot, rfl, ?_⟩
      rw [hre]
      exact hfull
  | err c => exact absurd h (by simp)
  | assertFail => exact absurd h (by simp)
  | spin => exact absurd h (by simp)

/-- An error return of `buf_read_from_tls` (when the overflow guards are
not in play) is the transport's own negative code, the trace ends at the
failing read, and the bytes of all earlier reads stay committed. -/
theorem buf_read_err_spec (p : Policy) (opts : Options) (now : Nat) (b : Buf)
    (m : TlsMock) (n : Nat) (c : Int) (b2 : Buf) (m2 : TlsMock)
    (evs : List Event) (hwf : wfReads m.reads = true) (hn : n ≤ INT_MAX)
    (hsum : b.datalen + n < INT_MAX)
    (h : buf_read_from_tls p opts now b m n = (Res.err c, b2, m2, evs)) :
    c < 0 ∧ (∃ evs0 k, evs = evs0 ++ [Event.readCall k c []]) ∧
      bytesOf b2 = bytesOf b ++ readYields evs ∧
      b2.datalen = b.datalen + (readYields evs).length := by
  have H := fillLoop_master p n (n + 1) b m 0 hwf
  unfold buf_read_from_tls at h
  rw [if_neg (by omega)] at h
  rw [if_neg (by rw [usubIntMax_of_le n hn]; omega)] at h
  rcases hloop : fillLoop p n (n + 1) b m 0 with ⟨res, b3, m3, evs3⟩
  rw [hloop] at h H
  obtain ⟨hby, hdl, hwf2, hre, herr, hok, hfull⟩ := H
  dsimp only at hby hdl hwf2 hre herr hok hfull
  cases res with
  | ok total =>
    dsimp only at h
    split at h <;> exact absurd h (by simp)
  | err c0 =>
    dsimp only at h
    simp only [Prod.mk.injEq, Res.err.injEq] at h
    obtain ⟨hc, hb, hm, hev⟩ := h
    subst hc hb hm hev
    obtain ⟨hcneg, evs0, k, hsplit⟩ := herr c0 rfl
    exact ⟨hcneg, ⟨evs0, k, hsplit⟩, hby, hdl⟩
  | assertFail => exact absurd h (by simp)
  | spin => exact absurd h (by simp)

/-- Unfolding of `buf_flush_to_tls` to the loop-level master invariant. -/
theorem buf_flush_master (b : Buf) (m : TlsMock) (fl bf : Nat)
    (hwf : wfWrites m.writes = true) (hlen : b.datalen = (bytesOf b).length) :
    writeAccepted (buf_flush_to_tls b m fl bf).2.2.2.2 ++
        bytesOf (buf_flush_to_tls b m fl bf).2.1 = bytesOf b ∧
      (buf_flush_to_tls b m fl bf).2.1.datalen =
        (bytesOf (buf_flush_to_tls b m fl bf).2.1).length ∧
      wfWrites (buf_flush_to_tls b m fl bf).2.2.1.writes = true ∧
      (∀ c : Int, (buf_flush_to_tls b m fl bf).1 = Res.err c →
        c < 0 ∧ ∃ evs0 s d, (buf_flush_to_tls b m fl bf).2.2.2.2 =
          evs0 ++ [Event.writeCall s d c]) := by
  unfold buf_flush_to_tls
  dsimp only
  exact flushLoop_master _ b m _ _ 0 hwf hlen

/-- Any sequence of normally-returning fill calls appends exactly the bytes
the transport delivered, in order, and keeps the length counter
consistent. -/
theorem runFills_spec (p : Policy) (opts : Options) :
    ∀ (scripts : List (List ReadStep × Nat)) (b bF : Buf) (evF : List Event),
      wfReadScripts scripts = true → b.datalen = (bytesOf b).length →
      runFills p opts b scripts = some (bF, evF) →
      bytesOf bF = bytesOf b ++ readYields evF ∧
        bF.datalen = (bytesOf bF).length
  | [], b, bF, evF, _, hlen, h => by
    simp only [runFills, Option.some.injEq, Prod.mk.injEq] at h
    obtain ⟨hb, hev⟩ := h
    subst hb
    rw [← hev]
    simp [readYields, hlen]
  | (script, at_most) :: rest, b, bF, evF, hwf, hlen, h => by
    simp only [wfReadScripts, Bool.and_eq_true] at hwf
    unfold runFills at h
    rcases hcall : buf_read_from_tls p opts 0 b
        { reads := script, writes := [], peerIp := "", peerPort := 0 } at_most
      with ⟨res, b2, m2, evs⟩
    rw [hcall] at h
    cases res with
    | ok t =>
      dsimp only at h
      rcases hrest : runFills p opts b2 rest with _ | ⟨b3, evs2⟩
      · rw [hrest] at h; exact absurd h (by simp)
      rw [hrest] at h
      simp only [Option.some.injEq, Prod.mk.injEq] at h
      obtain ⟨hb, hev⟩ := h
      subst hb
      obtain ⟨hby, hdl, _, _, _⟩ :=
        buf_read_ok_spec p opts 0 b _ at_most t b2 m2 evs hwf.1 hcall
      have hlen2 : b2.datalen = (bytesOf b2).length := by
        rw [hdl, hby, hlen]
        simp
      obtain ⟨ihby, ihlen⟩ := runFills_spec p opts rest b2 b3 evs2 hwf.2 hlen2 hrest
      refine ⟨?_, ihlen⟩
      rw [← hev, readYields_append, ihby, hby, List.append_assoc]
    | err c => exact absurd h (by simp)
    | assertFail => exact absurd h (by simp)
    | spin => exact absurd h (by simp)

/-- Any sequence of normally-returning flush calls hands the transport
exactly a prefix of the buffered bytes, draining them, and keeps the length
counter consistent. -/
theorem runFlushes_spec :
    ∀ (scripts : List (List (Nat × WriteStep) × Nat × Nat)) (b bF : Buf)
      (evW : List Event),
      wfWriteScripts scripts = true → b.datalen = (bytesOf b).length →
      runFlushes b scripts = some (bF, evW) →
      writeAccepted evW ++ bytesOf bF = bytesOf b ∧
        bF.datalen = (bytesOf bF).length
  | [], b, bF, evW, _, hlen, h => by
    simp only [runFlushes, Option.some.injEq, Prod.mk.injEq] at h
    obtain ⟨hb, hev⟩ := h
    subst hb
    rw [← hev]
    simp [writeAccepted, hlen]
  | (script, flushlen, budget) :: rest, b, bF, evW, hwf, hlen, h => by
    simp only [wfWriteScripts, Bool.and_eq_true] at hwf
    unfold runFlushes at h
    rcases hcall : buf_flush_to_tls b
        { reads := [], writes := script, peerIp := "", peerPort := 0 }
        flushlen budget with ⟨res, b2, m2, bf2, evs⟩
    rw [hcall] at h
    cases res with
    | ok t =>
      dsimp only at h
      rcases hrest : runFlushes b2 rest with _ | ⟨b3, evs2⟩
      · rw [hrest] at h; exact absurd h (by simp)
      rw [hrest] at h
      simp only [Option.some.injEq, Prod.mk.injEq] at h
      obtain ⟨hb, hev⟩ := h
      subst hb
      have H := buf_flush_master b
        { reads := [], writes := script, peerIp := "", peerPort := 0 }
        flushlen budget hwf.1 hlen
      rw [hcall] at H
      obtain ⟨hinv, hlen2, _, _⟩ := H
      dsimp only at hinv hlen2
      obtain ⟨ihinv, ihlen⟩ := runFlushes_spec rest b2 b3 evs2 hwf.2 hlen2 hrest
      refine ⟨?_, ihlen⟩
      rw [← hev, writeAccepted_append, List.append_assoc, ihinv, hinv]
    | err c => exact absurd h (by simp)
    | assertFail => exact absurd h (by simp)
    | spin => exact absurd h (by simp)

/-! ### The claims -/

/-- Claim C1 (refuted; the code contains the defect the spec excludes):
`buf_read_from_tls` is claimed never to record or emit the remote peer's
network address, port, or a timestamp.  Evaluating the code with the
`NodeType` configuration flag set shows the call's event trace containing
exactly the injected `getpeername`/`log_notice` emission of the peer's IP,
port and timestamp alongside the transport read. -/
theorem nodetype_fill_logs_peer_address :
    (buf_read_from_tls ⟨8, fun k => k⟩ ⟨true⟩ 42 emptyBuf
        ⟨[ReadStep.yield []], [], "10.0.0.7", 9001⟩ 4).2.2.2 =
      [Event.readCall 4 0 [], Event.logPeer "10.0.0.7" 9001 42 0] := rfl

/-- Claim C2, counterexample: with `forced_write_size = 5 > 0`,
`flushlen = 0` and an empty buffer, `buf_flush_to_tls` does not issue one
write of length at least 5 and return — it aborts on the
`tor_assert(sz == 0)` in `flush_chunk_tls` with an empty trace (no
transport write at all). -/
theorem flush_forced_empty_counterexample :
    buf_flush_to_tls emptyBuf ⟨[], [(5, WriteStep.accept 5)], "", 0⟩ 0 0 =
      (Res.assertFail, emptyBuf, ⟨[], [], "", 0⟩, 0, []) := rfl

/-- Claim C2, amended: if the transport's forced write size is `F > 0`,
`flushlen = 0` and the buffer is empty, `buf_flush_to_tls` raises the
iteration's write size from 0 to `F` and then fails the
`tor_assert(sz == 0)` assertion for the missing chunk, aborting before any
transport write is issued, with the buffer and a zeroed budget returned. -/
theorem flush_forced_empty_asserts (b : Buf) (F : Nat) (step : WriteStep)
    (rest : List (Nat × WriteStep)) (m : TlsMock) (bf : Nat)
    (hchunks : b.chunks = []) (hdat : b.datalen = 0)
    (hwrites : m.writes = (F, step) :: rest) (hF : 0 < F) :
    buf_flush_to_tls b m 0 bf =
      (Res.assertFail, b, { m with writes := rest }, 0, []) := by
  have hhead : b.chunks.head? = none := by rw [hchunks]; rfl
  have hbf1 : (if b.datalen < bf then b.datalen else bf) = 0 := by
    rw [hdat]; split <;> omega
  have hnw : nextWrite m = (F, step, { m with writes := rest }) := by
    rcases m with ⟨reads, writes, ip, port⟩
    simp only at hwrites
    subst hwrites
    rfl
  unfold buf_flush_to_tls
  dsimp only
  rw [hbf1]
  have hfl1 : (if (0 : Nat) < 0 then 0 else 0) = 0 := rfl
  rw [hfl1]
  unfold flushLoop
  simp only [Nat.cast_zero]
  rw [flushTarget_none b 0 hhead, hhead]
  unfold flush_chunk_tls
  rw [hnw]
  dsimp only
  rw [if_neg (by omega)]

/-- Witness for the amended claim C2 at a concrete input. -/
theorem flush_forced_empty_asserts_witness :
    buf_flush_to_tls emptyBuf ⟨[], [(5, WriteStep.accept 5)], "", 0⟩ 0 7 =
      (Res.assertFail, emptyBuf, ⟨[], [], "", 0⟩, 0, []) :=
  flush_forced_empty_asserts emptyBuf 5 (WriteStep.accept 5) []
    ⟨[], [(5, WriteStep.accept 5)], "", 0⟩ 7 rfl rfl rfl (by decide)

/-- Claim C3, counterexample: the condition "`at_most` would push the
buffer's total length at or past `INT_MAX`" holds for an empty buffer and
`at_most = 2^31`, yet the `size_t` wraparound in the guard
`buf->datalen >= INT_MAX - at_most` lets the call through: it performs a
transport read and returns 0 normally instead of failing with `-1` before
any I/O. -/
theorem fill_overflow_guard_bypass_counterexample :
    INT_MAX ≤ emptyBuf.datalen + 2 ^ 31 ∧
      buf_read_from_tls ⟨8, fun k => k⟩ ⟨false⟩ 0 emptyBuf
          ⟨[ReadStep.yield []], [], "", 0⟩ (2 ^ 31) =
        (Res.ok 0, ⟨[⟨[], 2 ^ 31⟩], 0⟩, ⟨[], [], "", 0⟩,
          [Event.readCall (2 ^ 31) 0 []]) :=
  ⟨by decide, rfl⟩

/-- Claim C3, amended: for every `at_most ≤ INT_MAX` (the range for which
the `size_t` subtraction in the guard does not wrap), if `at_most` would
push `buf->datalen` at or past `INT_MAX`, `buf_read_from_tls` returns the
internal-invariant error `-1` before any transport I/O, leaving the buffer,
the transport and the trace untouched. -/
theorem fill_overflow_guard (p : Policy) (opts : Options) (now : Nat)
    (b : Buf) (m : TlsMock) (at_most : Nat) (h1 : at_most ≤ INT_MAX)
    (h2 : INT_MAX ≤ b.datalen + at_most) :
    buf_read_from_tls p opts now b m at_most = (Res.err (-1), b, m, []) := by
  unfold buf_read_from_tls
  by_cases hd : INT_MAX ≤ b.datalen
  · rw [if_pos hd]
  · rw [if_neg hd, if_pos (by rw [usubIntMax_of_le at_most h1]; omega)]

/-- Witness for the amended claim C3 at a concrete input. -/
theorem fill_overflow_guard_witness :
    buf_read_from_tls ⟨8, fun k => k⟩ ⟨false⟩ 0 emptyBuf ⟨[], [], "", 0⟩
        INT_MAX = (Res.err (-1), emptyBuf, ⟨[], [], "", 0⟩, []) :=
  fill_overflow_guard ⟨8, fun k => k⟩ ⟨false⟩ 0 emptyBuf ⟨[], [], "", 0⟩
    INT_MAX (Nat.le_refl _) (by decide)

/-- Claim C8: `buf_flush_to_tls` never fails on an inconsistent
`*buf_flushlen`/`flushlen` pair: on entry the budget is saturated down to
`buf->datalen` and `flushlen` down to the corrected budget, before any
write is attempted — a call with inconsistent arguments behaves exactly
like the call with the saturated arguments. -/
theorem flush_budget_saturation (b : Buf) (m : TlsMock) (flushlen bf : Nat) :
    buf_flush_to_tls b m flushlen bf =
      buf_flush_to_tls b m (min flushlen (min bf b.datalen))
        (min bf b.datalen) := by
  unfold buf_flush_to_tls
  dsimp only
  rw [show (if b.datalen < bf then b.datalen else bf) = min bf b.datalen from
    by split <;> omega]
  rw [show (if b.datalen < min bf b.datalen then b.datalen
      else min bf b.datalen) = min bf b.datalen from by split <;> omega]
  rw [show (if min bf b.datalen < flushlen then min bf b.datalen
      else flushlen) = min flushlen (min bf b.datalen) from by split <;> omega]
  rw [show (if min bf b.datalen < min flushlen (min bf b.datalen)
      then min bf b.datalen else min flushlen (min bf b.datalen)) =
      min flushlen (min bf b.datalen) from by split <;> omega]

/-- Claim C4: in every iteration of `buf_flush_to_tls`, the size handed to
the transport's write equals `max(target, forced_write_size)`, where the
target is the lesser of the remaining requested size `sz` and the head
chunk's buffered length (0 when the buffer is empty); consequently a call
can report more than `flushlen` bytes flushed, as the concrete run with
`flushlen = 2` and forced size 3 shows. -/
theorem flush_write_size_resolution :
    (∀ (m : TlsMock) (b : Buf) (sz : Int) (bf : Nat) (s : Nat)
      (d : List Byte) (r : Int),
      0 ≤ sz →
      Event.writeCall s d r ∈
        (flush_chunk_tls m b b.chunks.head? (flushTarget b sz) bf).2.2.2.2 →
      s = max (match b.chunks.head? with
          | some h => min sz.toNat h.datalen
          | none => 0) (peekForced m)) ∧
    (buf_flush_to_tls ⟨[⟨[1, 2, 3], 4⟩], 3⟩
        ⟨[], [(3, WriteStep.accept 3)], "", 0⟩ 2 3).1 = Res.ok 3 := by
  constructor
  · intro m b sz bf s d r hsz hmem
    obtain ⟨hs, _⟩ :=
      flush_chunk_events m b b.chunks.head? (flushTarget b sz) bf s d r hmem
    rw [hs]
    congr 1
    rcases hh : b.chunks.head? with _ | h
    · rw [flushTarget_none b sz hh]
    · rw [flushTarget_eq_min b sz hsz h hh]
  · rfl

/-- Witness for claim C4 at a concrete input. -/
theorem flush_write_size_resolution_witness :
    3 = max (match (⟨[⟨[9, 9, 9], 3⟩], 3⟩ : Buf).chunks.head? with
        | some h => min (1 : Int).toNat h.datalen
        | none => 0)
      (peekForced ⟨[], [(3, WriteStep.accept 3)], "", 0⟩) :=
  flush_write_size_resolution.1 ⟨[], [(3, WriteStep.accept 3)], "", 0⟩
    ⟨[⟨[9, 9, 9], 3⟩], 3⟩ 1 2 3 [9, 9, 9] 3 (by decide) (by decide)

/-- Claim C5: every successful write iteration (`flush_chunk_tls` returning
`ok r`) removes from the buffer exactly the `r` bytes the transport
reported written — the content loses precisely its length-`r` prefix, no
more and no less — and decrements the budget by the same `r`, saturating at
zero (`Nat` subtraction). -/
theorem flush_drain_accounting (m : TlsMock) (b : Buf) (chunk? : Option Chunk)
    (sz0 bf r : Nat) (b2 : Buf) (m2 : TlsMock) (bf2 : Nat) (evs : List Event)
    (hlen : b.datalen = (bytesOf b).length)
    (h : flush_chunk_tls m b chunk? sz0 bf = (Res.ok r, b2, m2, bf2, evs)) :
    bytesOf b2 = (bytesOf b).drop r ∧
      (bytesOf b2).length = (bytesOf b).length - r ∧
      r ≤ (bytesOf b).length ∧ b2.datalen = b.datalen - r ∧ bf2 = bf - r := by
  obtain ⟨hle, hdl, hby, hbf, _⟩ :=
    flush_chunk_ok_spec m b chunk? sz0 bf r b2 m2 bf2 evs h
  exact ⟨hby, by rw [hby]; simp, by omega, hdl, hbf⟩

/-- Witness for claim C5 at a concrete input. -/
theorem flush_drain_accounting_witness :
    bytesOf (⟨[⟨[6], 3⟩], 1⟩ : Buf) = (bytesOf ⟨[⟨[4, 5, 6], 3⟩], 3⟩).drop 2 ∧
      (bytesOf (⟨[⟨[6], 3⟩], 1⟩ : Buf)).length =
        (bytesOf ⟨[⟨[4, 5, 6], 3⟩], 3⟩).length - 2 ∧
      2 ≤ (bytesOf (⟨[⟨[4, 5, 6], 3⟩], 3⟩ : Buf)).length ∧
      (⟨[⟨[6], 3⟩], 1⟩ : Buf).datalen = (⟨[⟨[4, 5, 6], 3⟩], 3⟩ : Buf).datalen - 2 ∧
      (1 : Nat) = 3 - 2 :=
  flush_drain_accounting ⟨[], [(0, WriteStep.accept 2)], "", 0⟩
    ⟨[⟨[4, 5, 6], 3⟩], 3⟩ (some ⟨[4, 5, 6], 3⟩) 2 3 2 ⟨[⟨[6], 3⟩], 1⟩
    ⟨[], [], "", 0⟩ 1 [Event.writeCall 2 [4, 5] 2] (by decide) rfl

/-- Claim C6: a negative transport return is propagated by both operations
as the exact code, immediately (the trace ends with the failing call, which
moves no bytes), while all bytes moved by earlier iterations of the same
call remain committed to the buffer. -/
theorem error_propagation :
    (∀ (p : Policy) (opts : Options) (now : Nat) (b : Buf) (m : TlsMock)
      (n : Nat) (c : Int) (b2 : Buf) (m2 : TlsMock) (evs : List Event),
      wfReads m.reads = true → n ≤ INT_MAX → b.datalen + n < INT_MAX →
      buf_read_from_tls p opts now b m n = (Res.err c, b2, m2, evs) →
      c < 0 ∧ (∃ evs0 k, evs = evs0 ++ [Event.readCall k c []]) ∧
        bytesOf b2 = bytesOf b ++ readYields evs ∧
        b2.datalen = b.datalen + (readYields evs).length) ∧
    (∀ (b : Buf) (m : TlsMock) (fl bf : Nat) (c : Int) (b2 : Buf)
      (m2 : TlsMock) (bf2 : Nat) (evs : List Event),
      wfWrites m.writes = true → b.datalen = (bytesOf b).length →
      buf_flush_to_tls b m fl bf = (Res.err c, b2, m2, bf2, evs) →
      c < 0 ∧ (∃ evs0 s d, evs = evs0 ++ [Event.writeCall s d c]) ∧
        writeAccepted evs ++ bytesOf b2 = bytesOf b) := by
  constructor
  · intro p opts now b m n c b2 m2 evs hwf hn hsum h
    exact buf_read_err_spec p opts now b m n c b2 m2 evs hwf hn hsum h
  · intro b m fl bf c b2 m2 bf2 evs hwf hlen h
    have H := buf_flush_master b m fl bf hwf hlen
    rw [h] at H
    obtain ⟨hinv, _, _, herr⟩ := H
    obtain ⟨hcneg, evs0, s, d, hsplit⟩ := herr c rfl
    exact ⟨hcneg, ⟨evs0, s, d, hsplit⟩, hinv⟩

/-- Witness for claim C6: both conjuncts applied at concrete partial-success
runs ending in a transport error. -/
theorem error_propagation_witness :
    ((-3 : Int) < 0 ∧
      (∃ evs0 k, [Event.readCall 2 2 [7, 7], Event.readCall 2 (-3) []] =
        evs0 ++ [Event.readCall k (-3) []]) ∧
      bytesOf (⟨[⟨[7, 7], 2⟩, ⟨[], 2⟩], 2⟩ : Buf) = bytesOf emptyBuf ++
        readYields [Event.readCall 2 2 [7, 7], Event.readCall 2 (-3) []] ∧
      (⟨[⟨[7, 7], 2⟩, ⟨[], 2⟩], 2⟩ : Buf).datalen = emptyBuf.datalen +
        (readYields [Event.readCall 2 2 [7, 7],
          Event.readCall 2 (-3) []]).length) ∧
    ((-7 : Int) < 0 ∧
      (∃ evs0 s d, [Event.writeCall 2 [1, 2] (-7)] =
        evs0 ++ [Event.writeCall s d (-7)]) ∧
      writeAccepted [Event.writeCall 2 [1, 2] (-7)] ++
        bytesOf (⟨[⟨[1, 2], 2⟩], 2⟩ : Buf) = bytesOf ⟨[⟨[1, 2], 2⟩], 2⟩) :=
  ⟨error_propagation.1 ⟨8, fun _ => 2⟩ ⟨false⟩ 0 emptyBuf
      ⟨[ReadStep.yield [7, 7], ReadStep.err (-3)], [], "", 0⟩ 5 (-3)
      ⟨[⟨[7, 7], 2⟩, ⟨[], 2⟩], 2⟩ ⟨[], [], "", 0⟩
      [Event.readCall 2 2 [7, 7], Event.readCall 2 (-3) []]
      (by decide) (by decide) (by decide) rfl,
    error_propagation.2 ⟨[⟨[1, 2], 2⟩], 2⟩
      ⟨[], [(0, WriteStep.err (-7))], "", 0⟩ 2 2 (-7) ⟨[⟨[1, 2], 2⟩], 2⟩
      ⟨[], [], "", 0⟩ 2 [Event.writeCall 2 [1, 2] (-7)]
      (by decide) rfl rfl⟩

/-- Claim C7: when an iteration's transport read comes back short, the fill
loop stops without issuing another read — every read event except possibly
the last is full — and the call returns the non-negative total of bytes
appended; in particular, with a transport yielding `[5, 0]` and
`at_most = 10`, `buf_read_from_tls` returns 5, the buffer holds exactly
those 5 bytes, and the second scripted read is never consumed. -/
theorem short_read_stops_loop :
    (∀ (p : Policy) (opts : Options) (now : Nat) (b : Buf) (m : TlsMock)
      (n t : Nat) (b2 : Buf) (m2 : TlsMock) (evs : List Event),
      wfReads m.reads = true →
      buf_read_from_tls p opts now b m n = (Res.ok t, b2, m2, evs) →
      (∀ e ∈ (readEvents evs).dropLast, isFullRead e = true) ∧
        t = (readYields evs).length ∧
        bytesOf b2 = bytesOf b ++ readYields evs) ∧
    buf_read_from_tls ⟨8, fun k => k⟩ ⟨false⟩ 0 emptyBuf
        ⟨[ReadStep.yield [1, 2, 3, 4, 5], ReadStep.yield []], [], "", 0⟩ 10 =
      (Res.ok 5, ⟨[⟨[1, 2, 3, 4, 5], 10⟩], 5⟩, ⟨[ReadStep.yield []], [], "", 0⟩,
        [Event.readCall 10 5 [1, 2, 3, 4, 5]]) := by
  constructor
  · intro p opts now b m n t b2 m2 evs hwf h
    obtain ⟨hby, _, htot, hre, hfull⟩ :=
      buf_read_ok_spec p opts now b m n t b2 m2 evs hwf h
    exact ⟨hfull, htot, hby⟩
  · rfl

/-- Witness for the universal part of claim C7 at the `[5, 0]` scenario. -/
theorem short_read_stops_loop_witness :
    (∀ e ∈ (readEvents [Event.readCall 10 5 [1, 2, 3, 4, 5]]).dropLast,
        isFullRead e = true) ∧
      5 = (readYields [Event.readCall 10 5 [1, 2, 3, 4, 5]]).length ∧
      bytesOf (⟨[⟨[1, 2, 3, 4, 5], 10⟩], 5⟩ : Buf) =
        bytesOf emptyBuf ++ readYields [Event.readCall 10 5 [1, 2, 3, 4, 5]] :=
  short_read_stops_loop.1 ⟨8, fun k => k⟩ ⟨false⟩ 0 emptyBuf
    ⟨[ReadStep.yield [1, 2, 3, 4, 5], ReadStep.yield []], [], "", 0⟩ 10 5
    ⟨[⟨[1, 2, 3, 4, 5], 10⟩], 5⟩ ⟨[ReadStep.yield []], [], "", 0⟩
    [Event.readCall 10 5 [1, 2, 3, 4, 5]] (by decide) rfl

/-- Claim C9: writing bytes into a fresh empty buffer through any sequence
of normally-returning `buf_read_from_tls` calls and then draining it to
empty through any sequence of normally-returning `buf_flush_to_tls` calls
delivers to the transport's write exactly the bytes the reads produced, in
order — for every allocation policy (chunk capacity), including capacities
of 1 byte, 16 bytes, or larger than the payload. -/
theorem fill_flush_round_trip (p : Policy) (opts : Options)
    (fillScripts : List (List ReadStep × Nat))
    (flushScripts : List (List (Nat × WriteStep) × Nat × Nat))
    (bF b2 : Buf) (evF evW : List Event)
    (hwfR : wfReadScripts fillScripts = true)
    (hwfW : wfWriteScripts flushScripts = true)
    (hfill : runFills p opts emptyBuf fillScripts = some (bF, evF))
    (hflush : runFlushes bF flushScripts = some (b2, evW))
    (hdrained : bytesOf b2 = []) :
    writeAccepted evW = readYields evF := by
  obtain ⟨hby, hlenF⟩ :=
    runFills_spec p opts fillScripts emptyBuf bF evF hwfR rfl hfill
  obtain ⟨hinv, _⟩ :=
    runFlushes_spec flushScripts bF b2 evW hwfW hlenF hflush
  rw [hdrained, List.append_nil] at hinv
  rw [hinv, hby]
  rfl

/-- Witness for claim C9: a 3-byte payload filled across 2-byte chunks and
flushed in two write iterations round-trips exactly. -/
theorem fill_flush_round_trip_witness :
    writeAccepted [Event.writeCall 2 [1, 2] 2, Event.writeCall 1 [3] 1] =
      readYields [Event.readCall 2 2 [1, 2], Event.readCall 1 1 [3]] :=
  fill_flush_round_trip ⟨8, fun _ => 2⟩ ⟨false⟩
    [([ReadStep.yield [1, 2]], 2), ([ReadStep.yield [3]], 1)]
    [([(0, WriteStep.accept 10), (0, WriteStep.accept 10)], 3, 3)]
    ⟨[⟨[1, 2], 2⟩, ⟨[3], 2⟩], 3⟩ ⟨[], 0⟩
    [Event.readCall 2 2 [1, 2], Event.readCall 1 1 [3]]
    [Event.writeCall 2 [1, 2] 2, Event.writeCall 1 [3] 1]
    (by decide) (by decide) rfl rfl rfl

/-- Claim C10: a single write issued by the flush loop never sources bytes
beyond the head chunk's valid data: whenever the transport's forced write
size is at most the head chunk's buffered length (and zero when the buffer
is empty), the resolved write size satisfies both `flush_chunk_tls`
assertions (`sz ≤ chunk->datalen`, resp. `sz == 0`) and the call cannot hit
the assertion-failure branch. -/
theorem flush_chunk_assertions_hold (m : TlsMock) (b : Buf) (sz : Int)
    (bf : Nat) (hsz : 0 ≤ sz) (hwf : wfWrites m.writes = true)
    (hlen : b.datalen = (bytesOf b).length)
    (hsome : ∀ h : Chunk, b.chunks.head? = some h → peekForced m ≤ h.datalen)
    (hnone : b.chunks.head? = none → peekForced m = 0) :
    (∀ h : Chunk, b.chunks.head? = some h →
        max (flushTarget b sz) (peekForced m) ≤ h.datalen) ∧
      (b.chunks.head? = none → max (flushTarget b sz) (peekForced m) = 0) ∧
      (flush_chunk_tls m b b.chunks.head? (flushTarget b sz) bf).1 ≠
        Res.assertFail := by
  refine ⟨?_, ?_, ?_⟩
  · intro h hh
    have h1 := flushTarget_le b sz h hh
    have h2 := hsome h hh
    omega
  · intro hh
    rw [flushTarget_none b sz hh, hnone hh]
    simp
  · apply flush_chunk_no_assert m b _ bf hwf hlen
    · intro h hh
      exact ⟨flushTarget_le b sz h hh, hsome h hh⟩
    · intro hh
      exact ⟨flushTarget_none b sz hh, hnone hh⟩

/-- Witness for claim C10 at a concrete input. -/
theorem flush_chunk_assertions_hold_witness :
    (∀ h : Chunk, (⟨[⟨[7, 7, 7], 4⟩], 3⟩ : Buf).chunks.head? = some h →
        max (flushTarget ⟨[⟨[7, 7, 7], 4⟩], 3⟩ 2)
          (peekForced ⟨[], [(2, WriteStep.accept 9)], "", 0⟩) ≤ h.datalen) ∧
      ((⟨[⟨[7, 7, 7], 4⟩], 3⟩ : Buf).chunks.head? = none →
        max (flushTarget ⟨[⟨[7, 7, 7], 4⟩], 3⟩ 2)
          (peekForced ⟨[], [(2, WriteStep.accept 9)], "", 0⟩) = 0) ∧
      (flush_chunk_tls ⟨[], [(2, WriteStep.accept 9)], "", 0⟩
          ⟨[⟨[7, 7, 7], 4⟩], 3⟩ (⟨[⟨[7, 7, 7], 4⟩], 3⟩ : Buf).chunks.head?
          (flushTarget ⟨[⟨[7, 7, 7], 4⟩], 3⟩ 2) 1).1 ≠ Res.assertFail :=
  flush_chunk_assertions_hold ⟨[], [(2, WriteStep.accept 9)], "", 0⟩
    ⟨[⟨[7, 7, 7], 4⟩], 3⟩ 2 1 (by decide) (by decide) (by decide)
    (by intro h hh; simp only [List.head?_cons, Option.some.injEq] at hh;
        subst hh; decide)
    (by intro hh; simp at hh)

end BufTls
